import Mathlib

/-!
Verification development for the task-list state manager in
`src/chapter4/todo.jsx` (a single-file React todo application).

The relevant program logic is embedded shallowly:

* A `Task` mirrors the objects created by `addTodo`
  (`{ id, text, done, createdAt }`); `createdAt` is produced by
  `Date.now()` and is modelled as an `Int` (an exact epoch-millisecond
  count; the program only ever stores integral timestamps).
* The mutating operations (`addTodo`, `toggle`, `remove`, `saveEdit`,
  `clearCompleted`, `toggleAll`) become pure functions
  `List Task → List Task`.  Ambient effects are made explicit
  arguments: the `uid()` result and `Date.now()` value of `addTodo`
  are parameters, and the React state cells (`text`, `editingId`,
  `editingText`) become arguments of the corresponding functions.
* JavaScript string operations used by the program are modelled at the
  level of `List Char`: `String.prototype.trim` as `jsTrim`,
  `String.prototype.toLowerCase` as `jsToLower` (ASCII case mapping),
  `String.prototype.includes` as `strIncludes`.
* The persistence boundary (`useLocalStorage`) reads an optional raw
  string (`localStorage.getItem` returns `null` for an absent key) and
  runs `JSON.parse` inside `try`/`catch`, falling back to the initial
  value `[]` from the call site `useLocalStorage("todos.v1", [])`.
  `JSON.parse` / `JSON.stringify` are platform built-ins and are
  modelled by an executable JSON grammar over an inductive `Json`
  value type; JSON numbers are modelled as exact decimals
  (mantissa and decimal exponent) rather than IEEE doubles.
-/

namespace Todo

/-- Whitespace recognised by the JavaScript string `trim` operation
(the ASCII subset actually reachable in this program). -/
def isJsWs (c : Char) : Bool :=
  c = ' ' || c = '\t' || c = '\n' || c = '\r' || c = '\x0b' || c = '\x0c'

/-- Character-list core of `String.prototype.trim`: drop leading and
trailing whitespace. -/
def trimChars (cs : List Char) : List Char :=
  ((cs.dropWhile isJsWs).reverse.dropWhile isJsWs).reverse

/-- Model of `String.prototype.trim`. -/
def jsTrim (s : String) : String :=
  ⟨trimChars s.data⟩

/-- Model of `String.prototype.toLowerCase` (ASCII case mapping). -/
def jsToLower (s : String) : String :=
  ⟨s.data.map Char.toLower⟩

/-- Model of `String.prototype.includes`: substring occurrence. -/
def strIncludes (s sub : String) : Bool :=
  decide (sub.data <:+: s.data)

/-- One to-do item, as constructed by `addTodo`:
`{ id: uid(), text: val, done: false, createdAt: Date.now() }`. -/
structure Task where
  id : String
  text : String
  done : Bool
  createdAt : Int
deriving DecidableEq, Repr

/-- Embedding of `addTodo` from `todo.jsx`.  The React state `text`,
the generated `uid()` and the `Date.now()` timestamp are explicit
arguments; the function returns the new `todos` state. -/
def addTodo (text newId : String) (now : Int) (todos : List Task) : List Task :=
  let val := jsTrim text
  if val = "" then todos
  else { id := newId, text := val, done := false, createdAt := now } :: todos

/-- Embedding of `toggle` from `todo.jsx`. -/
def toggle (id : String) (todos : List Task) : List Task :=
  todos.map fun t => if t.id = id then { t with done := !t.done } else t

/-- Embedding of `remove` from `todo.jsx`. -/
def remove (id : String) (todos : List Task) : List Task :=
  todos.filter fun t => t.id != id

/-- Embedding of `clearCompleted` from `todo.jsx`. -/
def clearCompleted (todos : List Task) : List Task :=
  todos.filter fun t => !t.done

/-- Embedding of `toggleAll` from `todo.jsx`: unconditionally sets
`done` on every task. -/
def toggleAll (done : Bool) (todos : List Task) : List Task :=
  todos.map fun t => { t with done := done }

/-- JavaScript truthiness test applied by `saveEdit` to the
`editingId` state (`if (!editingId) return;`): `null` and the empty
string are falsy. -/
def jsFalsy : Option String → Bool
  | none => true
  | some s => s == ""

/-- Embedding of `saveEdit` from `todo.jsx`.  The React state cells
`editingId` and `editingText` are explicit arguments; the function
returns the new `todos` state (the resets of `editingId` and
`editingText` do not touch the task list). -/
def saveEdit (editingId : Option String) (editingText : String)
    (todos : List Task) : List Task :=
  let val := jsTrim editingText
  if jsFalsy editingId then todos
  else
    match editingId with
    | none => todos
    | some eid =>
      if val = "" then todos.filter fun t => t.id != eid
      else todos.map fun t => if t.id = eid then { t with text := val } else t

/-- The `edit(id, newRawText)` operation of the specification:
`saveEdit` run with `editingId` set to the given id. -/
def edit (id newRawText : String) (todos : List Task) : List Task :=
  saveEdit (some id) newRawText todos

/-- The three entries of the `FILTERS` table in `todo.jsx`. -/
inductive Filter where
  | all
  | active
  | completed
deriving DecidableEq, Repr

/-- Predicates of the `FILTERS` table: `() => true`, `(t) => !t.done`,
`(t) => t.done`. -/
def filterFn : Filter → Task → Bool
  | .all => fun _ => true
  | .active => fun t => !t.done
  | .completed => fun t => t.done

/-- Embedding of the `filtered` derivation in `todo.jsx`: filter by the
selected `FILTERS` predicate, then, when the trimmed lower-cased search
string is non-empty (JavaScript truthiness of `q`), keep the tasks whose
lower-cased text contains it. -/
def filtered (filter : Filter) (search : String) (todos : List Task) : List Task :=
  if jsToLower (jsTrim search) = "" then todos.filter (filterFn filter)
  else (todos.filter (filterFn filter)).filter
    fun t => strIncludes (jsToLower t.text) (jsToLower (jsTrim search))

/-- Result record of the `stats` derivation in `todo.jsx`. -/
structure Stats where
  total : Nat
  completed : Nat
  active : Nat
deriving DecidableEq, Repr

/-- Embedding of the `stats` derivation in `todo.jsx`. -/
def stats (todos : List Task) : Stats :=
  { total := todos.length
  , completed := (todos.filter fun t => t.done).length
  , active := todos.length - (todos.filter fun t => t.done).length }

/-- The combined predicate a task must satisfy to appear in the
`filtered` view for a given search string: the query is the trimmed,
lower-cased search text; an empty query matches everything, otherwise
the lower-cased task text must contain it. -/
def matchesQuery (search : String) (t : Task) : Bool :=
  jsToLower (jsTrim search) == "" ||
    strIncludes (jsToLower t.text) (jsToLower (jsTrim search))

/-- Exact decimal JSON number: the denoted value is
`mantissa / 10 ^ exponent`.  The program only ever writes integral
epoch-millisecond timestamps, which have `exponent = 0`. -/
structure JsonNumber where
  mantissa : Int
  exponent : Nat
deriving DecidableEq, Repr

/-- JSON value tree, the result type of the `JSON.parse` model. -/
inductive Json where
  | null
  | bool (b : Bool)
  | num (n : JsonNumber)
  | str (s : String)
  | arr (elems : List Json)
  | obj (fields : List (String × Json))

/-- Decimal digit characters used by the number serializer. -/
def decChar : Nat → Char
  | 0 => '0'
  | 1 => '1'
  | 2 => '2'
  | 3 => '3'
  | 4 => '4'
  | 5 => '5'
  | 6 => '6'
  | 7 => '7'
  | 8 => '8'
  | _ => '9'

/-- Lower-case hexadecimal digit characters used for `\u00XX` escapes. -/
def hexChar : Nat → Char
  | 0 => '0'
  | 1 => '1'
  | 2 => '2'
  | 3 => '3'
  | 4 => '4'
  | 5 => '5'
  | 6 => '6'
  | 7 => '7'
  | 8 => '8'
  | 9 => '9'
  | 10 => 'a'
  | 11 => 'b'
  | 12 => 'c'
  | 13 => 'd'
  | 14 => 'e'
  | _ => 'f'

/-- Decimal representation of a natural number, most significant digit
first (the digits `JSON.stringify` prints for a non-negative integer). -/
def natToDigits (n : Nat) : List Char :=
  if _h : n < 10 then [decChar n]
  else natToDigits (n / 10) ++ [decChar (n % 10)]
termination_by n
decreasing_by exact Nat.div_lt_self (by omega) (by omega)

/-- Decimal representation of an integer as printed by
`JSON.stringify`. -/
def intToChars (i : Int) : List Char :=
  if i < 0 then '-' :: natToDigits i.natAbs else natToDigits i.natAbs

/-- Escape of a single character inside a JSON string literal, as
performed by `JSON.stringify`: quote and backslash get two-character
escapes, the five named control characters get their short escapes,
all other control characters get `\u00XX`, and every other character
is emitted verbatim. -/
def escapeChar (c : Char) : List Char :=
  if c = '"' then ['\\', '"']
  else if c = '\\' then ['\\', '\\']
  else if c = '\x08' then ['\\', 'b']
  else if c = '\x0c' then ['\\', 'f']
  else if c = '\n' then ['\\', 'n']
  else if c = '\r' then ['\\', 'r']
  else if c = '\t' then ['\\', 't']
  else if c.toNat < 0x20 then
    ['\\', 'u', '0', '0', hexChar (c.toNat / 16), hexChar (c.toNat % 16)]
  else [c]

/-- Escaped body of a JSON string literal. -/
def escapeChars (cs : List Char) : List Char :=
  (cs.map escapeChar).flatten

/-- JSON string literal (quotes included) for a string value. -/
def serializeString (s : String) : List Char :=
  '"' :: escapeChars s.data ++ ['"']

/-- Characters printed by `JSON.stringify` for a boolean. -/
def serializeBool : Bool → List Char
  | true => ['t', 'r', 'u', 'e']
  | false => ['f', 'a', 'l', 's', 'e']

/-- Character sequence `JSON.stringify` prints for one task object:
the four fields in insertion order, no whitespace. -/
def serializeTask (t : Task) : List Char :=
  '{' :: serializeString "id" ++ ':' :: serializeString t.id
    ++ ',' :: serializeString "text" ++ ':' :: serializeString t.text
    ++ ',' :: serializeString "done" ++ ':' :: serializeBool t.done
    ++ ',' :: serializeString "createdAt" ++ ':' :: intToChars t.createdAt
    ++ ['}']

/-- Comma-separated concatenation of serialized array elements. -/
def joinComma : List (List Char) → List Char
  | [] => []
  | [x] => x
  | x :: y :: rest => x ++ ',' :: joinComma (y :: rest)

/-- Model of `JSON.stringify(value)` at the `useEffect` persistence
write in `useLocalStorage`, applied to a task list. -/
def serializeTasks (l : List Task) : String :=
  ⟨'[' :: joinComma (l.map serializeTask) ++ [']']⟩

/-- JSON insignificant whitespace. -/
def isJsonWs (c : Char) : Bool :=
  c = ' ' || c = '\t' || c = '\n' || c = '\r'

/-- Skip insignificant whitespace. -/
def skipWs (cs : List Char) : List Char :=
  cs.dropWhile isJsonWs

/-- Numeric value of a hexadecimal digit, accepting both cases. -/
def hexDigitVal (c : Char) : Option Nat :=
  if '0' ≤ c ∧ c ≤ '9' then some (c.toNat - '0'.toNat)
  else if 'a' ≤ c ∧ c ≤ 'f' then some (c.toNat - 'a'.toNat + 10)
  else if 'A' ≤ c ∧ c ≤ 'F' then some (c.toNat - 'A'.toNat + 10)
  else none

/-- Numeric value of a decimal digit character. -/
def digitVal (c : Char) : Nat :=
  c.toNat - '0'.toNat

/-- Parser for the body of a JSON string literal, entered after the
opening quote; returns the decoded characters and the input after the
closing quote.  Escape sequences follow the JSON grammar: the
two-character escapes, and `\\uXXXX` with four hexadecimal digits;
an unescaped control character is a syntax error. -/
def parseStringAux : List Char → Option (List Char × List Char)
  | [] => none
  | '"' :: rest => some ([], rest)
  | '\\' :: 'u' :: h1 :: h2 :: h3 :: h4 :: r3 =>
    (match hexDigitVal h1, hexDigitVal h2, hexDigitVal h3, hexDigitVal h4 with
      | some a, some b, some c2, some d =>
        match parseStringAux r3 with
        | some (s, r) =>
          some (Char.ofNat (a * 4096 + b * 256 + c2 * 16 + d) :: s, r)
        | none => none
      | _, _, _, _ => none)
  | '\\' :: e :: r2 =>
    if e = '"' then
      match parseStringAux r2 with
      | some (s, r) => some ('"' :: s, r)
      | none => none
    else if e = '\\' then
      match parseStringAux r2 with
      | some (s, r) => some ('\\' :: s, r)
      | none => none
    else if e = '/' then
      match parseStringAux r2 with
      | some (s, r) => some ('/' :: s, r)
      | none => none
    else if e = 'b' then
      match parseStringAux r2 with
      | some (s, r) => some ('\x08' :: s, r)
      | none => none
    else if e = 'f' then
      match parseStringAux r2 with
      | some (s, r) => some ('\x0c' :: s, r)
      | none => none
    else if e = 'n' then
      match parseStringAux r2 with
      | some (s, r) => some ('\n' :: s, r)
      | none => none
    else if e = 'r' then
      match parseStringAux r2 with
      | some (s, r) => some ('\r' :: s, r)
      | none => none
    else if e = 't' then
      match parseStringAux r2 with
      | some (s, r) => some ('\t' :: s, r)
      | none => none
    else none
  | '\\' :: [] => none
  | c :: rest =>
    if c.toNat < 0x20 then none
    else
      match parseStringAux rest with
      | some (s, r) => some (c :: s, r)
      | none => none

/-- Greedy decimal digit accumulator. -/
def parseDigitsAux (acc : Nat) : List Char → Nat × List Char
  | [] => (acc, [])
  | c :: rest =>
    if c.isDigit then parseDigitsAux (acc * 10 + digitVal c) rest
    else (acc, c :: rest)

/-- Greedy decimal digit accumulator that also counts the consumed
digits (needed for fraction parts). -/
def parseDigitsCnt (acc cnt : Nat) : List Char → Nat × Nat × List Char
  | [] => (acc, cnt, [])
  | c :: rest =>
    if c.isDigit then parseDigitsCnt (acc * 10 + digitVal c) (cnt + 1) rest
    else (acc, cnt, c :: rest)

/-- Parser for the integer part of a JSON number (grammar
`0 | [1-9][0-9]*`): a leading `0` is not followed by further digits. -/
def parseNat1 : List Char → Option (Nat × List Char)
  | [] => none
  | c :: rest =>
    if c = '0' then some (0, rest)
    else if c.isDigit then some (parseDigitsAux (digitVal c) rest)
    else none

/-- Parser for a (non-empty) digit run, leading zeros allowed, as in a
JSON exponent part. -/
def parseNatAll : List Char → Option (Nat × List Char)
  | [] => none
  | c :: rest =>
    if c.isDigit then some (parseDigitsAux (digitVal c) rest)
    else none

/-- Parser for the optional fraction part of a JSON number, given the
already-parsed integer part: on `.` it requires at least one digit and
returns the combined digits together with the count of fractional
digits; otherwise it passes the integer part through. -/
def parseFrac (i : Nat) : List Char → Option (Nat × Nat × List Char)
  | '.' :: d :: r3 =>
    if d.isDigit then
      match parseDigitsCnt (digitVal d) 1 r3 with
      | (f, k, r4) => some (i * 10 ^ k + f, k, r4)
    else none
  | '.' :: [] => none
  | r1 => some (i, 0, r1)

/-- Digit run of an exponent part together with the combination of the
resulting decimal shift: a negative exponent adds to the fractional
shift, a positive one multiplies into the mantissa (exactly) until the
shift is used up. -/
def parseExpDigits (man dexp : Nat) (esign : Bool) (r : List Char) :
    Option (JsonNumber × List Char) :=
  match parseNatAll r with
  | none => none
  | some (ev, r8) =>
    if esign then some (⟨(man : Int), dexp + ev⟩, r8)
    else if dexp ≤ ev then some (⟨(man : Int) * 10 ^ (ev - dexp), 0⟩, r8)
    else some (⟨(man : Int), dexp - ev⟩, r8)

/-- Parser for the optional exponent part of a JSON number, given the
mantissa digits and the decimal-exponent shift of the fraction; the
result is an exact decimal. -/
def parseExp (man dexp : Nat) : List Char → Option (JsonNumber × List Char)
  | [] => some (⟨(man : Int), dexp⟩, [])
  | e :: r6 =>
    if e = 'e' ∨ e = 'E' then
      match r6 with
      | '+' :: r => parseExpDigits man dexp false r
      | '-' :: r => parseExpDigits man dexp true r
      | _ => parseExpDigits man dexp false r6
    else some (⟨(man : Int), dexp⟩, e :: r6)

/-- Parser for the unsigned body of a JSON number: integer part,
optional fraction, optional exponent. -/
def parseNumBody (cs : List Char) : Option (JsonNumber × List Char) :=
  match parseNat1 cs with
  | none => none
  | some (i, r1) =>
    match parseFrac i r1 with
    | none => none
    | some (man, dexp, r5) => parseExp man dexp r5

/-- Parser for a JSON number, with optional leading minus sign. -/
def parseNumber (cs : List Char) : Option (Json × List Char) :=
  match cs with
  | '-' :: r =>
    match parseNumBody r with
    | some (n, rest) => some (.num ⟨-n.mantissa, n.exponent⟩, rest)
    | none => none
  | _ =>
    match parseNumBody cs with
    | some (n, rest) => some (.num n, rest)
    | none => none

mutual

/-- Recursive-descent parser for one JSON value (model of the
grammar accepted by `JSON.parse`); `fuel` bounds the recursion depth
and is decremented on every nested call. -/
def parseValue : Nat → List Char → Option (Json × List Char)
  | 0, _ => none
  | fuel + 1, cs =>
    match skipWs cs with
    | [] => none
    | 'n' :: 'u' :: 'l' :: 'l' :: rest => some (.null, rest)
    | 't' :: 'r' :: 'u' :: 'e' :: rest => some (.bool true, rest)
    | 'f' :: 'a' :: 'l' :: 's' :: 'e' :: rest => some (.bool false, rest)
    | '"' :: rest =>
      match parseStringAux rest with
      | some (s, r) => some (.str ⟨s⟩, r)
      | none => none
    | '[' :: rest =>
      match skipWs rest with
      | ']' :: r => some (.arr [], r)
      | _ =>
        match parseElems fuel rest with
        | some (vs, r) => some (.arr vs, r)
        | none => none
    | '{' :: rest =>
      match skipWs rest with
      | '}' :: r => some (.obj [], r)
      | _ =>
        match parseMembers fuel rest with
        | some (ms, r) => some (.obj ms, r)
        | none => none
    | other => parseNumber other

/-- Parser for the non-empty element list of a JSON array, entered
after the opening bracket; consumes the closing bracket. -/
def parseElems : Nat → List Char → Option (List Json × List Char)
  | 0, _ => none
  | fuel + 1, cs =>
    match parseValue fuel cs with
    | none => none
    | some (v, r) =>
      match skipWs r with
      | ',' :: r2 =>
        match parseElems fuel r2 with
        | some (vs, r3) => some (v :: vs, r3)
        | none => none
      | ']' :: r2 => some ([v], r2)
      | _ => none

/-- Parser for the non-empty member list of a JSON object, entered
after the opening brace; consumes the closing brace. -/
def parseMembers : Nat → List Char → Option (List (String × Json) × List Char)
  | 0, _ => none
  | fuel + 1, cs =>
    match skipWs cs with
    | '"' :: r =>
      match parseStringAux r with
      | none => none
      | some (k, r1) =>
        match skipWs r1 with
        | ':' :: r2 =>
          match parseValue fuel r2 with
          | none => none
          | some (v, r3) =>
            match skipWs r3 with
            | ',' :: r4 =>
              match parseMembers fuel r4 with
              | some (ms, r5) => some ((⟨k⟩, v) :: ms, r5)
              | none => none
            | '}' :: r4 => some ([(⟨k⟩, v)], r4)
            | _ => none
        | _ => none
    | _ => none

end

/-- Model of `JSON.parse`: parse one value and require only trailing
whitespace after it; `none` models a thrown `SyntaxError`. -/
def jsonParse (s : String) : Option Json :=
  match parseValue (s.data.length + 1) s.data with
  | some (j, rest) => if skipWs rest = [] then some j else none
  | none => none

/-- Embedding of the `useState` initializer in `useLocalStorage` at the
call site `useLocalStorage("todos.v1", [])`:
`raw ? JSON.parse(raw) : initialValue` inside `try`/`catch`, where
`raw` is `localStorage.getItem(key)` (`none` models an absent key, and
the empty string is falsy).  The result is the raw parsed JSON value:
the code performs no shape validation. -/
def load (raw : Option String) : Json :=
  match raw with
  | none => .arr []
  | some s =>
    if s = "" then .arr []
    else
      match jsonParse s with
      | some j => j
      | none => .arr []

/-- Decoder for one task object.  Modelled from the spec: the
persistence format of section 6 — an object with fields `id` (string),
`text` (string), `done` (boolean), `createdAt` (number, epoch
milliseconds, hence an exact integer) — which the source trusts without
validating. -/
def decodeTask (j : Json) : Option Task :=
  match j with
  | .obj fields =>
    match fields.lookup "id", fields.lookup "text",
        fields.lookup "done", fields.lookup "createdAt" with
    | some (.str i), some (.str tx), some (.bool d), some (.num n) =>
      if n.exponent = 0 then
        some { id := i, text := tx, done := d, createdAt := n.mantissa }
      else none
    | _, _, _, _ => none
  | _ => none

/-- Decoder for a list of task objects. -/
def decodeTasks : List Json → Option (List Task)
  | [] => some []
  | j :: rest =>
    match decodeTask j, decodeTasks rest with
    | some t, some ts => some (t :: ts)
    | _, _ => none

/-- Decoder for the persisted blob shape of section 6 of the spec: a
JSON array of task objects. -/
def decodeTaskList : Json → Option (List Task)
  | .arr elems => decodeTasks elems
  | _ => none

/-- Composition of `JSON.parse` and the spec shape: what it means for a
stored raw value to parse as a JSON array of task objects. -/
def decodeStored : Option String → Option (List Task)
  | none => none
  | some s => (jsonParse s).bind decodeTaskList

/-- JSON tree written by `JSON.stringify` for one task. -/
def taskToJson (t : Task) : Json :=
  .obj [("id", .str t.id), ("text", .str t.text),
    ("done", .bool t.done), ("createdAt", .num ⟨t.createdAt, 0⟩)]

/-- JSON tree written by `JSON.stringify` for a task list. -/
def tasksToJson (l : List Task) : Json :=
  .arr (l.map taskToJson)

/-- One step of a user add-intent: the typed text, the `uid()` the
generator returns for it, and the `Date.now()` timestamp. -/
def applyAdds (inputs : List (String × String × Int)) (todos : List Task) : List Task :=
  inputs.foldl (fun acc p => addTodo p.1 p.2.1 p.2.2 acc) todos

/-- The add-intents whose text is non-empty after trimming (the ones
`addTodo` does not ignore). -/
def nonEmptyAdds (inputs : List (String × String × Int)) : List (String × String × Int) :=
  inputs.filter fun p => jsTrim p.1 != ""

/-- The task `addTodo` constructs for one non-ignored add-intent. -/
def addedTask (p : String × String × Int) : Task :=
  { id := p.2.1, text := jsTrim p.1, done := false, createdAt := p.2.2 }

/-- TaskList invariant of the data model: all ids in the sequence are
pairwise distinct, and no task text is empty after trimming. -/
def TaskListInv (l : List Task) : Prop :=
  (l.map Task.id).Nodup ∧ ∀ t ∈ l, jsTrim t.text ≠ ""

theorem trimChars_eq_rdropWhile (cs : List Char) :
    trimChars cs = List.rdropWhile isJsWs (List.dropWhile isJsWs cs) := rfl

theorem trimChars_idem (cs : List Char) : trimChars (trimChars cs) = trimChars cs := by
  rw [trimChars_eq_rdropWhile, trimChars_eq_rdropWhile]
  have h1 : List.dropWhile isJsWs
      (List.rdropWhile isJsWs (List.dropWhile isJsWs cs)) =
      List.rdropWhile isJsWs (List.dropWhile isJsWs cs) := by
    rw [List.dropWhile_eq_self_iff]
    intro hl
    have hpre : List.rdropWhile isJsWs (List.dropWhile isJsWs cs) <+:
        List.dropWhile isJsWs cs := List.rdropWhile_prefix _ _
    have hlen : 0 < (List.dropWhile isJsWs cs).length :=
      lt_of_lt_of_le hl hpre.length_le
    have hnot := List.dropWhile_get_zero_not isJsWs cs hlen
    simpa [List.get_eq_getElem, List.IsPrefix.getElem hpre] using hnot
  rw [h1, List.rdropWhile_idempotent]

theorem jsTrim_idem (s : String) : jsTrim (jsTrim s) = jsTrim s :=
  congrArg String.mk (trimChars_idem s.data)

theorem applyAdds_eq (inputs : List (String × String × Int)) (l : List Task) :
    applyAdds inputs l = ((nonEmptyAdds inputs).map addedTask).reverse ++ l := by
  induction inputs generalizing l with
  | nil => simp [applyAdds, nonEmptyAdds]
  | cons p ps ih =>
    have step : applyAdds (p :: ps) l = applyAdds ps (addTodo p.1 p.2.1 p.2.2 l) := rfl
    by_cases h : jsTrim p.1 = ""
    · have hadd : addTodo p.1 p.2.1 p.2.2 l = l := by simp [addTodo, h]
      have hf : nonEmptyAdds (p :: ps) = nonEmptyAdds ps := by
        simp [nonEmptyAdds, List.filter_cons, h]
      rw [step, hadd, hf, ih]
    · have hadd : addTodo p.1 p.2.1 p.2.2 l = addedTask p :: l := by
        simp [addTodo, addedTask, h]
      have hf : nonEmptyAdds (p :: ps) = p :: nonEmptyAdds ps := by
        simp [nonEmptyAdds, List.filter_cons, h]
      rw [step, hadd, hf, ih]
      simp

/-- Claim C2: `addTodo` trims its input; if the trimmed result is empty
the list is unchanged, otherwise a task with the supplied fresh id,
`done = false` and `createdAt` equal to the supplied current time is
prepended; over any sequence of adds the final list is the reversed
sequence of the non-empty-after-trim intents prepended to the initial
list (newest first), so its length grows by exactly their number. -/
theorem c2_add (inputs : List (String × String × Int)) (l : List Task)
    (t i : String) (n : Int) :
    (jsTrim t = "" → addTodo t i n l = l) ∧
    (jsTrim t ≠ "" →
      addTodo t i n l =
        { id := i, text := jsTrim t, done := false, createdAt := n } :: l) ∧
    applyAdds inputs l = ((nonEmptyAdds inputs).map addedTask).reverse ++ l ∧
    (applyAdds inputs l).length = l.length + (nonEmptyAdds inputs).length := by
  refine ⟨fun h => by simp [addTodo, h], fun h => by simp [addTodo, h],
    applyAdds_eq inputs l, ?_⟩
  rw [applyAdds_eq]
  simp [Nat.add_comm]

/-- Witness for C2 at concrete inputs: a whitespace-only add is ignored
and a padded add prepends the trimmed task; a two-intent run keeps only
the non-empty one. -/
theorem c2_add_witness :
    addTodo " " "i" 0 [] = [] ∧
    addTodo " x " "i" 0 [] =
      [{ id := "i", text := "x", done := false, createdAt := 0 }] ∧
    applyAdds [("a", "1", 2), ("  ", "2", 3)] [] =
      [{ id := "1", text := "a", done := false, createdAt := 2 }] := by
  refine ⟨(c2_add [] [] " " "i" 0).1 (by decide), ?_, ?_⟩
  · have h := (c2_add [] [] " x " "i" 0).2.1 (by decide)
    simpa [show jsTrim " x " = "x" from by decide] using h
  · have h := (c2_add [("a", "1", 2), ("  ", "2", 3)] [] "" "" 0).2.2.1
    rw [h]
    decide

/-- Claim C5: the `filtered` view returns exactly the tasks passing
both the selected `FILTERS` predicate and the case-insensitive
substring match of the trimmed query (an empty-after-trim query
matches every task), in the relative order of the underlying list;
being a pure function of the list it never mutates it. -/
theorem c5_filtered (f : Filter) (search : String) (l : List Task) :
    filtered f search l = l.filter fun t => filterFn f t && matchesQuery search t := by
  unfold filtered matchesQuery
  by_cases h : jsToLower (jsTrim search) = ""
  · simp [h]
  · have hb : (jsToLower (jsTrim search) == "") = false := by
      simpa using h
    simp [h, hb, List.filter_filter, Bool.and_comm]

/-- Claim C6: `toggleAll b` sets `done` to `b` on every task (each
position holds the original task with only `done` overwritten),
regardless of its previous value; consequently after `toggleAll true`
the `stats` active count is `0` and after `toggleAll false` the
`stats` completed count is `0`. -/
theorem c6_toggleAll (l : List Task) (b : Bool) (i : Nat) :
    (toggleAll b l)[i]? = l[i]?.map (fun t => { t with done := b }) ∧
    (stats (toggleAll true l)).active = 0 ∧
    (stats (toggleAll false l)).completed = 0 := by
  refine ⟨by simp [toggleAll, List.getElem?_map], ?_, ?_⟩
  · simp [stats, toggleAll, List.filter_map, Function.comp_def]
  · simp [stats, toggleAll, List.filter_map, Function.comp_def]

/-- Claim C7: `toggle id` flips the `done` flag of the tasks matching
`id` and leaves all other tasks untouched (positionwise
characterization); it is a no-op when no task carries the id; and it
is an involution, so two applications restore every original `done`
value. -/
theorem c7_toggle (l : List Task) (i : String) (j : Nat) :
    ((toggle i l)[j]? =
      l[j]?.map fun t => if t.id = i then { t with done := !t.done } else t) ∧
    ((∀ t ∈ l, t.id ≠ i) → toggle i l = l) ∧
    toggle i (toggle i l) = l := by
  refine ⟨by simp [toggle, List.getElem?_map], ?_, ?_⟩
  · intro h
    unfold toggle
    have hpt : ∀ t ∈ l, (if t.id = i then { t with done := !t.done } else t) = t :=
      fun t ht => if_neg (h t ht)
    rw [List.map_congr_left hpt]
    exact List.map_id l
  · unfold toggle
    rw [List.map_map]
    have hpt : ∀ t ∈ l,
        ((fun t => if t.id = i then { t with done := !t.done } else t) ∘
          fun t => if t.id = i then { t with done := !t.done } else t) t = t := by
      rintro ⟨tid, ttext, tdone, tcr⟩ _
      by_cases h : tid = i <;> simp [Function.comp_def, h]
    rw [List.map_congr_left hpt]
    exact List.map_id l

/-- Witness for C7: toggling an id absent from the list leaves it
unchanged. -/
theorem c7_toggle_witness :
    toggle "b" [⟨"a", "x", false, 0⟩] = [⟨"a", "x", false, 0⟩] :=
  (c7_toggle [⟨"a", "x", false, 0⟩] "b" 0).2.1 (by decide)

/-- Claim C8: on a list whose ids are pairwise distinct (the TaskList
invariant), the id sets of the Active and Completed views with an
empty query partition the id set of the whole list: their union is
everything and they are disjoint. -/
theorem c8_partition (l : List Task) (h : (l.map Task.id).Nodup) (x : String) :
    ((x ∈ (filtered .active "" l).map Task.id ∨
        x ∈ (filtered .completed "" l).map Task.id) ↔ x ∈ l.map Task.id) ∧
    ¬(x ∈ (filtered .active "" l).map Task.id ∧
        x ∈ (filtered .completed "" l).map Task.id) := by
  have hq : jsToLower (jsTrim "") = "" := by decide
  have hact : filtered .active "" l = l.filter fun t => !t.done := by
    simp [filtered, filterFn, hq]
  have hcomp : filtered .completed "" l = l.filter fun t => t.done := by
    simp [filtered, filterFn, hq]
  constructor
  · rw [hact, hcomp]
    simp only [List.mem_map, List.mem_filter]
    constructor
    · rintro (⟨t, ⟨ht, _⟩, rfl⟩ | ⟨t, ⟨ht, _⟩, rfl⟩) <;> exact ⟨t, ht, rfl⟩
    · rintro ⟨t, ht, rfl⟩
      by_cases hd : t.done
      · exact Or.inr ⟨t, ⟨ht, hd⟩, rfl⟩
      · exact Or.inl ⟨t, ⟨ht, by simp [hd]⟩, rfl⟩
  · rw [hact, hcomp]
    rintro ⟨h1, h2⟩
    simp only [List.mem_map, List.mem_filter] at h1 h2
    obtain ⟨t1, ⟨m1, d1⟩, e1⟩ := h1
    obtain ⟨t2, ⟨m2, d2⟩, e2⟩ := h2
    have heq : t1 = t2 :=
      List.inj_on_of_nodup_map h m1 m2 (e1.trans e2.symm)
    subst heq
    simp [d2] at d1

/-- Witness for C8 on a concrete two-task list with distinct ids. -/
theorem c8_partition_witness :
    (("a" ∈ (filtered .active "" [⟨"a", "x", false, 0⟩, ⟨"b", "y", true, 1⟩]).map Task.id ∨
        "a" ∈ (filtered .completed "" [⟨"a", "x", false, 0⟩, ⟨"b", "y", true, 1⟩]).map Task.id) ↔
      "a" ∈ ([⟨"a", "x", false, 0⟩, ⟨"b", "y", true, 1⟩] : List Task).map Task.id) ∧
    ¬("a" ∈ (filtered .active "" [⟨"a", "x", false, 0⟩, ⟨"b", "y", true, 1⟩]).map Task.id ∧
        "a" ∈ (filtered .completed "" [⟨"a", "x", false, 0⟩, ⟨"b", "y", true, 1⟩]).map Task.id) :=
  c8_partition [⟨"a", "x", false, 0⟩, ⟨"b", "y", true, 1⟩] (by decide) "a"

/-- Counterexample to claim C3 as stated: it quantifies over every id,
but for the empty-string id the JavaScript truthiness guard
`if (!editingId) return;` makes `edit` a no-op, while `remove ""`
deletes the task with id `""`; so an edit whose text trims to empty is
not equivalent to `remove` at that id. -/
theorem c3_counterexample :
    ¬(edit "" "" [⟨"", "a", false, 0⟩] = remove "" [⟨"", "a", false, 0⟩]) := by
  decide

/-- Claim C3, amended: for every NON-EMPTY id (the empty-string id is
falsy in JavaScript, so `saveEdit` returns early and `edit "" _` is a
no-op), `edit` trims the new text; if the trimmed result is empty its
effect is exactly `remove id`, otherwise it replaces `text` on every
task matching `id` leaving `id`, `done`, `createdAt` unchanged; if no
task has the id the list is unchanged. -/
theorem c3_edit (id raw : String) (l : List Task) (hid : id ≠ "") :
    (jsTrim raw = "" → edit id raw l = remove id l) ∧
    (jsTrim raw ≠ "" →
      edit id raw l =
        l.map fun t => if t.id = id then { t with text := jsTrim raw } else t) ∧
    ((∀ t ∈ l, t.id ≠ id) → edit id raw l = l) := by
  have hfalsy : jsFalsy (some id) = false := by
    simpa [jsFalsy] using hid
  refine ⟨fun h => ?_, fun h => ?_, fun h => ?_⟩
  · simp [edit, saveEdit, remove, hfalsy, h]
  · simp [edit, saveEdit, hfalsy, h]
  · by_cases hraw : jsTrim raw = ""
    · simp only [edit, saveEdit, hfalsy, Bool.false_eq_true, if_false, hraw, if_true]
      rw [List.filter_eq_self.mpr]
      intro t ht
      simpa using h t ht
    · simp only [edit, saveEdit, hfalsy, Bool.false_eq_true, if_false, hraw, if_neg hraw]
      have hpt : ∀ t ∈ l,
          (if t.id = id then { t with text := jsTrim raw } else t) = t :=
        fun t ht => if_neg (h t ht)
      rw [List.map_congr_left hpt]
      exact List.map_id l

/-- Witness for the amended C3 at a concrete non-empty id: an edit
trimming to empty deletes the matching task exactly like `remove`, a
non-empty edit rewrites the text, and an edit of an absent id is a
no-op. -/
theorem c3_edit_witness :
    edit "a" " " [⟨"a", "x", false, 0⟩] = remove "a" [⟨"a", "x", false, 0⟩] ∧
    edit "a" " y " [⟨"a", "x", false, 0⟩] =
      [⟨"a", "y", false, 0⟩] ∧
    edit "b" "z" [⟨"a", "x", false, 0⟩] = [⟨"a", "x", false, 0⟩] := by
  refine ⟨(c3_edit "a" " " [⟨"a", "x", false, 0⟩] (by decide)).1 (by decide), ?_,
    (c3_edit "b" "z" [⟨"a", "x", false, 0⟩] (by decide)).2.2 (by decide)⟩
  have h := (c3_edit "a" " y " [⟨"a", "x", false, 0⟩] (by decide)).2.1 (by decide)
  rw [h]
  decide

/-- Counterexample to claim C10 as stated: it requires the id-keyed
mutations to modify every task matching the given id, but `edit` with
the empty-string id is a no-op (JavaScript truthiness guard in
`saveEdit`), so a matching task keeps its old text instead of the
claimed replacement. -/
theorem c10_counterexample :
    ¬(edit "" "b" [⟨"", "a", false, 0⟩] =
        [⟨"", "a", false, 0⟩].map fun t =>
          if t.id = "" then { t with text := "b" } else t) := by
  decide

/-- Claim C10, amended: `toggle id` and `remove id` modify or delete
exactly the tasks whose id equals the given id — every matching task,
also under duplicates — leave every field of every other task
unchanged and preserve the relative order of the remaining tasks, with
`toggle` touching only the `done` field; `edit` satisfies the same
frame property for every NON-EMPTY id (with the empty-string id it is
a no-op), replacing `text` on the matching tasks when the new text
trims non-empty and deleting them when it trims empty. -/
theorem c10_frame (l : List Task) (i raw : String) (j : Nat) :
    ((toggle i l)[j]? =
      l[j]?.map fun t => if t.id = i then { t with done := !t.done } else t) ∧
    (remove i l).Sublist l ∧
    (∀ t ∈ l, (t ∈ remove i l ↔ t.id ≠ i)) ∧
    (i ≠ "" → jsTrim raw ≠ "" →
      (edit i raw l)[j]? =
        l[j]?.map fun t => if t.id = i then { t with text := jsTrim raw } else t) ∧
    (i ≠ "" → jsTrim raw = "" → edit i raw l = remove i l) := by
  refine ⟨by simp [toggle, List.getElem?_map], ?_, ?_, ?_, ?_⟩
  · exact List.filter_sublist l
  · intro t ht
    simp [remove, List.mem_filter, ht]
  · intro hid h
    have hfalsy : jsFalsy (some i) = false := by simpa [jsFalsy] using hid
    simp [edit, saveEdit, hfalsy, h, List.getElem?_map]
  · intro hid h
    have hfalsy : jsFalsy (some i) = false := by simpa [jsFalsy] using hid
    simp [edit, saveEdit, remove, hfalsy, h]

/-- Witness for the amended C10 at concrete inputs: removal keeps
exactly the non-matching tasks and an edit with non-empty id and text
rewrites only the matching text. -/
theorem c10_frame_witness :
    (⟨"b", "y", true, 1⟩ ∈ remove "a" [⟨"a", "x", false, 0⟩, ⟨"b", "y", true, 1⟩] ↔
      ("b" : String) ≠ "a") ∧
    edit "a" "z" [⟨"a", "x", false, 0⟩, ⟨"b", "y", true, 1⟩] =
      [⟨"a", "z", false, 0⟩, ⟨"b", "y", true, 1⟩] := by
  constructor
  · exact (c10_frame [⟨"a", "x", false, 0⟩, ⟨"b", "y", true, 1⟩] "a" "z" 0).2.2.1
      ⟨"b", "y", true, 1⟩ (by decide)
  · have h0 := (c10_frame [⟨"a", "x", false, 0⟩, ⟨"b", "y", true, 1⟩] "a" "z" 0).2.2.2.1
      (by decide) (by decide)
    have h1 := (c10_frame [⟨"a", "x", false, 0⟩, ⟨"b", "y", true, 1⟩] "a" "z" 1).2.2.2.1
      (by decide) (by decide)
    have h2 := (c10_frame [⟨"a", "x", false, 0⟩, ⟨"b", "y", true, 1⟩] "a" "z" 2).2.2.2.1
      (by decide) (by decide)
    have hlen : (edit "a" "z" [⟨"a", "x", false, 0⟩, ⟨"b", "y", true, 1⟩]).length = 2 := by
      decide
    apply List.ext_getElem?
    intro n
    match n with
    | 0 => simpa using h0
    | 1 => simpa using h1
    | n + 2 =>
      rw [List.getElem?_eq_none (by omega), List.getElem?_eq_none (by simp)]

theorem map_id_comp (l : List Task) (f : Task → Task)
    (hid : ∀ t, (f t).id = t.id) : (l.map f).map Task.id = l.map Task.id := by
  rw [List.map_map]
  exact List.map_congr_left fun t _ => hid t

theorem tasklistInv_filter (l : List Task) (p : Task → Bool)
    (h : TaskListInv l) : TaskListInv (l.filter p) := by
  refine ⟨List.Nodup.sublist ((List.filter_sublist l).map Task.id) h.1, ?_⟩
  intro t ht
  exact h.2 t (List.mem_of_mem_filter ht)

/-- Claim C4: every mutating operation — `addTodo` (under freshness of
the generated id), `toggle`, `remove`, `edit`, `clearCompleted`,
`toggleAll` — preserves the TaskList invariants: pairwise-distinct ids
and no empty-after-trim text. -/
theorem c4_invariants (l : List Task) (hInv : TaskListInv l) :
    (∀ t i n, i ∉ l.map Task.id → TaskListInv (addTodo t i n l)) ∧
    (∀ i, TaskListInv (toggle i l)) ∧
    (∀ i, TaskListInv (remove i l)) ∧
    (∀ i raw, TaskListInv (edit i raw l)) ∧
    TaskListInv (clearCompleted l) ∧
    (∀ b, TaskListInv (toggleAll b l)) := by
  obtain ⟨hids, htexts⟩ := hInv
  refine ⟨?_, ?_, ?_, ?_, ?_, ?_⟩
  · intro t i n hfresh
    by_cases h : jsTrim t = ""
    · simpa [addTodo, h] using ⟨hids, htexts⟩
    · rw [show addTodo t i n l =
        { id := i, text := jsTrim t, done := false, createdAt := n } :: l from by
          simp [addTodo, h]]
      refine ⟨List.nodup_cons.mpr ⟨by simpa using hfresh, hids⟩, ?_⟩
      intro u hu
      rcases List.mem_cons.mp hu with rfl | hu
      · simpa [jsTrim_idem] using h
      · exact htexts u hu
  · intro i
    refine ⟨?_, ?_⟩
    · rw [toggle, map_id_comp]
      · exact hids
      · intro u
        by_cases h : u.id = i <;> simp [h]
    · intro u hu
      obtain ⟨v, hv, rfl⟩ := List.mem_map.mp hu
      by_cases h : v.id = i <;> simpa [h] using htexts v hv
  · intro i
    exact tasklistInv_filter l _ ⟨hids, htexts⟩
  · intro i raw
    by_cases hfal : jsFalsy (some i) = true
    · simpa [edit, saveEdit, hfal] using ⟨hids, htexts⟩
    · rw [Bool.not_eq_true] at hfal
      by_cases hraw : jsTrim raw = ""
      · rw [show edit i raw l = l.filter (fun t => t.id != i) from by
          simp [edit, saveEdit, hfal, hraw]]
        exact tasklistInv_filter l _ ⟨hids, htexts⟩
      · rw [show edit i raw l =
          l.map (fun t => if t.id = i then { t with text := jsTrim raw } else t) from by
            simp [edit, saveEdit, hfal, hraw]]
        refine ⟨?_, ?_⟩
        · rw [map_id_comp]
          · exact hids
          · intro u
            by_cases h : u.id = i <;> simp [h]
        · intro u hu
          obtain ⟨v, hv, rfl⟩ := List.mem_map.mp hu
          by_cases h : v.id = i
          · simpa [h, jsTrim_idem] using hraw
          · simpa [h] using htexts v hv
  · exact tasklistInv_filter l _ ⟨hids, htexts⟩
  · intro b
    refine ⟨?_, ?_⟩
    · rw [toggleAll, map_id_comp]
      · exact hids
      · intro u
        simp
    · intro u hu
      obtain ⟨v, hv, rfl⟩ := List.mem_map.mp hu
      simpa using htexts v hv

/-- Witness for C4 on a concrete well-formed list with a fresh id. -/
theorem c4_invariants_witness :
    TaskListInv (addTodo " n " "b" 1 [⟨"a", "x", false, 0⟩]) ∧
    TaskListInv (edit "a" " " [⟨"a", "x", false, 0⟩]) ∧
    TaskListInv (toggleAll true [⟨"a", "x", false, 0⟩]) :=
  ⟨(c4_invariants [⟨"a", "x", false, 0⟩] ⟨by decide, by decide⟩).1 " n " "b" 1 (by decide),
   (c4_invariants [⟨"a", "x", false, 0⟩] ⟨by decide, by decide⟩).2.2.2.1 "a" " ",
   (c4_invariants [⟨"a", "x", false, 0⟩] ⟨by decide, by decide⟩).2.2.2.2.2 true⟩

/-- Counterexample to claim C1 as stated: the stored value `"\x7b\x7d"`
(an empty JSON object) fails to parse as a JSON array of Task objects,
yet `load` does not return the empty list — the code only catches
`JSON.parse` exceptions and performs no shape validation, so the
parsed object is returned as-is. -/
theorem c1_counterexample :
    decodeStored (some "\x7b\x7d") = none ∧
    load (some "\x7b\x7d") ≠ Json.arr [] := by
  refine ⟨rfl, ?_⟩
  rw [show load (some "\x7b\x7d") = Json.obj [] from rfl]
  intro h
  exact Json.noConfusion h

/-- Claim C1, amended: `load` returns the empty task list exactly in
the cases the code recovers from — the key is absent, the stored raw
value is the empty string (falsy), or `JSON.parse` throws; a stored
value that parses as JSON is returned unvalidated even when it is not
an array of Task objects, so no error is ever propagated but the
result is not forced to a list either. -/
theorem c1_load (s : String) :
    load none = Json.arr [] ∧
    load (some "") = Json.arr [] ∧
    (jsonParse s = none → load (some s) = Json.arr []) ∧
    (∀ j, jsonParse s = some j → load (some s) = j) := by
  refine ⟨rfl, rfl, fun h => ?_, fun j h => ?_⟩
  · unfold load
    by_cases hs : s = "" <;> simp [hs, h]
  · have hs : s ≠ "" := by
      intro hs
      rw [hs] at h
      exact Option.noConfusion ((rfl : jsonParse "" = none).symm.trans h)
    unfold load
    simp [hs, h]

/-- Witness for the amended C1: a syntactically broken blob falls back
to the empty array, and a well-formed non-list blob is returned
verbatim. -/
theorem c1_load_witness :
    load (some "x") = Json.arr [] ∧
    load (some "[0]") = Json.arr [Json.num ⟨0, 0⟩] :=
  ⟨(c1_load "x").2.2.1 rfl,
   (c1_load "[0]").2.2.2 (Json.arr [Json.num ⟨0, 0⟩]) rfl⟩

theorem escapeChars_cons (c : Char) (cs : List Char) :
    escapeChars (c :: cs) = escapeChar c ++ escapeChars cs := by
  simp [escapeChars]

theorem hexDigitVal_hexChar (n : Nat) (h : n < 16) :
    hexDigitVal (hexChar n) = some n := by
  interval_cases n <;> decide

theorem skipWs_cons_not (c : Char) (cs : List Char) (h : isJsonWs c = false) :
    skipWs (c :: cs) = c :: cs := by
  simp [skipWs, List.dropWhile_cons, h]

theorem serializeString_append (s : String) (x : List Char) :
    serializeString s ++ x = '"' :: (escapeChars s.data ++ '"' :: x) := by
  simp [serializeString]

theorem parseStringAux_escape (cs rest : List Char) :
    parseStringAux (escapeChars cs ++ '"' :: rest) = some (cs, rest) := by
  induction cs with
  | nil =>
    show parseStringAux (([] : List Char) ++ '"' :: rest) = some ([], rest)
    rw [List.nil_append, parseStringAux]
  | cons c cs ih =>
    rw [escapeChars_cons, List.append_assoc]
    by_cases h1 : c = '"'
    · subst h1
      show parseStringAux ('\\' :: '"' :: (escapeChars cs ++ '"' :: rest)) = _
      rw [parseStringAux]
      · simp [ih]
      · intro _ _ _ _ _ hu _
        exact absurd hu (by decide)
    by_cases h2 : c = '\\'
    · subst h2
      show parseStringAux ('\\' :: '\\' :: (escapeChars cs ++ '"' :: rest)) = _
      rw [parseStringAux]
      · simp [ih]
      · intro _ _ _ _ _ hu _
        exact absurd hu (by decide)
    by_cases h3 : c = '\x08'
    · subst h3
      show parseStringAux ('\\' :: 'b' :: (escapeChars cs ++ '"' :: rest)) = _
      rw [parseStringAux]
      · simp [ih]
      · intro _ _ _ _ _ hu _
        exact absurd hu (by decide)
    by_cases h4 : c = '\x0c'
    · subst h4
      show parseStringAux ('\\' :: 'f' :: (escapeChars cs ++ '"' :: rest)) = _
      rw [parseStringAux]
      · simp [ih]
      · intro _ _ _ _ _ hu _
        exact absurd hu (by decide)
    by_cases h5 : c = '\n'
    · subst h5
      show parseStringAux ('\\' :: 'n' :: (escapeChars cs ++ '"' :: rest)) = _
      rw [parseStringAux]
      · simp [ih]
      · intro _ _ _ _ _ hu _
        exact absurd hu (by decide)
    by_cases h6 : c = '\r'
    · subst h6
      show parseStringAux ('\\' :: 'r' :: (escapeChars cs ++ '"' :: rest)) = _
      rw [parseStringAux]
      · simp [ih]
      · intro _ _ _ _ _ hu _
        exact absurd hu (by decide)
    by_cases h7 : c = '\t'
    · subst h7
      show parseStringAux ('\\' :: 't' :: (escapeChars cs ++ '"' :: rest)) = _
      rw [parseStringAux]
      · simp [ih]
      · intro _ _ _ _ _ hu _
        exact absurd hu (by decide)
    by_cases h8 : c.toNat < 0x20
    · have hdiv : c.toNat / 16 < 16 := by omega
      have hmod : c.toNat % 16 < 16 := by omega
      rw [show escapeChar c =
          ['\\', 'u', '0', '0', hexChar (c.toNat / 16), hexChar (c.toNat % 16)] from by
        simp [escapeChar, h1, h2, h3, h4, h5, h6, h7, h8]]
      show parseStringAux ('\\' :: 'u' :: '0' :: '0' :: hexChar (c.toNat / 16) ::
        hexChar (c.toNat % 16) :: (escapeChars cs ++ '"' :: rest)) = _
      rw [parseStringAux]
      rw [hexDigitVal_hexChar _ hdiv, hexDigitVal_hexChar _ hmod]
      rw [show hexDigitVal '0' = some 0 from rfl]
      simp only [ih]
      have hval : 0 * 4096 + 0 * 256 + c.toNat / 16 * 16 + c.toNat % 16 = c.toNat := by
        omega
      rw [hval, Char.ofNat_toNat]
    · rw [show escapeChar c = [c] from by
        simp [escapeChar, h1, h2, h3, h4, h5, h6, h7, h8]]
      show parseStringAux (c :: (escapeChars cs ++ '"' :: rest)) = _
      rw [parseStringAux]
      all_goals try (intros; simp_all)

theorem parseDigitsAux_stop (acc : Nat) (rs : List Char) :
    parseDigitsAux acc ('}' :: rs) = (acc, '}' :: rs) := by
  rw [parseDigitsAux, if_neg (by decide)]

theorem decChar_spec (d : Nat) (h : d < 10) :
    (decChar d).isDigit = true ∧ digitVal (decChar d) = d ∧ (0 < d → decChar d ≠ '0') := by
  interval_cases d <;> exact ⟨by decide, by decide, by decide⟩

theorem natToDigits_ne_nil (n : Nat) : natToDigits n ≠ [] := by
  rw [natToDigits]
  split
  · simp
  · simp

theorem parseDigitsAux_natToDigits (n : Nat) :
    ∀ acc rest, parseDigitsAux acc (natToDigits n ++ rest) =
      parseDigitsAux (acc * 10 ^ (natToDigits n).length + n) rest := by
  induction n using Nat.strong_induction_on with
  | _ n ih =>
    intro acc rest
    by_cases h : n < 10
    · rw [natToDigits, dif_pos h]
      rw [List.singleton_append, parseDigitsAux,
        if_pos (decChar_spec n h).1, (decChar_spec n h).2.1]
      norm_num
    · rw [natToDigits, dif_neg h]
      have hlt : n / 10 < n := Nat.div_lt_self (by omega) (by omega)
      have hm : n % 10 < 10 := Nat.mod_lt n (by omega)
      rw [List.append_assoc, ih (n / 10) hlt acc _, List.singleton_append,
        parseDigitsAux, if_pos (decChar_spec _ hm).1, (decChar_spec _ hm).2.1]
      have harith : (acc * 10 ^ (natToDigits (n / 10)).length + n / 10) * 10 + n % 10 =
          acc * 10 ^ (natToDigits (n / 10) ++ [decChar (n % 10)]).length + n := by
        rw [List.length_append, List.length_singleton, pow_succ]
        ring_nf
        omega
      rw [harith]

theorem natToDigits_head (n : Nat) :
    ∀ c cs', natToDigits n = c :: cs' → c.isDigit = true ∧ (0 < n → c ≠ '0') := by
  induction n using Nat.strong_induction_on with
  | _ n ih =>
    intro c cs' hc
    by_cases h : n < 10
    · rw [natToDigits, dif_pos h] at hc
      injection hc with h1 _
      subst h1
      exact ⟨(decChar_spec n h).1, fun hp => (decChar_spec n h).2.2 hp⟩
    · rw [natToDigits, dif_neg h] at hc
      obtain ⟨c0, cs0, h0⟩ : ∃ a b, natToDigits (n / 10) = a :: b := by
        cases hh : natToDigits (n / 10) with
        | nil => exact absurd hh (natToDigits_ne_nil _)
        | cons a b => exact ⟨a, b, rfl⟩
      rw [h0, List.cons_append] at hc
      injection hc with h1 _
      subst h1
      have hlt : n / 10 < n := Nat.div_lt_self (by omega) (by omega)
      have := ih (n / 10) hlt c0 cs0 h0
      exact ⟨this.1, fun _ => this.2 (by omega)⟩

theorem parseNat1_natToDigits (n : Nat) (rs : List Char) :
    parseNat1 (natToDigits n ++ '}' :: rs) = some (n, '}' :: rs) := by
  rcases Nat.eq_zero_or_pos n with rfl | hpos
  · rw [show natToDigits 0 = ['0'] from by rw [natToDigits]; rfl]
    rw [List.singleton_append, parseNat1, if_pos rfl]
  · obtain ⟨c, cs', hc⟩ : ∃ a b, natToDigits n = a :: b := by
      cases hh : natToDigits n with
      | nil => exact absurd hh (natToDigits_ne_nil _)
      | cons a b => exact ⟨a, b, rfl⟩
    have hh := natToDigits_head n c cs' hc
    rw [hc, List.cons_append, parseNat1, if_neg (hh.2 hpos), if_pos hh.1]
    have h0 : parseDigitsAux 0 (c :: (cs' ++ '}' :: rs)) =
        parseDigitsAux (digitVal c) (cs' ++ '}' :: rs) := by
      rw [parseDigitsAux, if_pos hh.1]
      norm_num
    have h1 : parseDigitsAux 0 (natToDigits n ++ '}' :: rs) = (n, '}' :: rs) := by
      rw [parseDigitsAux_natToDigits n 0 ('}' :: rs), parseDigitsAux_stop]
      norm_num
    rw [hc, List.cons_append, h0] at h1
    rw [h1]

theorem parseNumBody_int (n : Nat) (rs : List Char) :
    parseNumBody (natToDigits n ++ '}' :: rs) = some (⟨(n : Int), 0⟩, '}' :: rs) := by
  simp only [parseNumBody, parseNat1_natToDigits]
  rw [show parseFrac n ('}' :: rs) = some (n, 0, '}' :: rs) from by
    rw [parseFrac]
    · intro d r3 heq
      injection heq with h1 _
      exact absurd h1 (by decide)
    · intro heq
      injection heq with h1 _
      exact absurd h1 (by decide)]
  show parseExp n 0 ('}' :: rs) = some (⟨(n : Int), 0⟩, '}' :: rs)
  rw [parseExp.eq_def]
  simp

theorem parseNumber_int (i : Int) (rs : List Char) :
    parseNumber (intToChars i ++ '}' :: rs) = some (.num ⟨i, 0⟩, '}' :: rs) := by
  by_cases h : i < 0
  · rw [show intToChars i = '-' :: natToDigits i.natAbs from by rw [intToChars, if_pos h]]
    rw [List.cons_append, parseNumber, parseNumBody_int]
    show some (Json.num ⟨-((i.natAbs : Int)), 0⟩, '}' :: rs) = _
    rw [show -((i.natAbs : Int)) = i from by omega]
  · rw [show intToChars i = natToDigits i.natAbs from by rw [intToChars, if_neg h]]
    obtain ⟨c, cs', hc⟩ : ∃ a b, natToDigits i.natAbs = a :: b := by
      cases hh : natToDigits i.natAbs with
      | nil => exact absurd hh (natToDigits_ne_nil _)
      | cons a b => exact ⟨a, b, rfl⟩
    have hh := natToDigits_head i.natAbs c cs' hc
    rw [hc, List.cons_append, parseNumber]
    · rw [← List.cons_append, ← hc, parseNumBody_int]
      show some (Json.num ⟨((i.natAbs : Int)), 0⟩, '}' :: rs) = _
      rw [show ((i.natAbs : Int)) = i from by omega]
    · intro r heq
      injection heq with h1 _
      subst h1
      exact absurd hh.1 (by decide)

theorem skipWs_quote (x : List Char) : skipWs ('"' :: x) = '"' :: x := by
  simp [skipWs, List.dropWhile_cons, isJsonWs]

theorem skipWs_colon (x : List Char) : skipWs (':' :: x) = ':' :: x := by
  simp [skipWs, List.dropWhile_cons, isJsonWs]

theorem skipWs_comma (x : List Char) : skipWs (',' :: x) = ',' :: x := by
  simp [skipWs, List.dropWhile_cons, isJsonWs]

theorem skipWs_rbrace (x : List Char) : skipWs ('}' :: x) = '}' :: x := by
  simp [skipWs, List.dropWhile_cons, isJsonWs]

theorem skipWs_rbrack (x : List Char) : skipWs (']' :: x) = ']' :: x := by
  simp [skipWs, List.dropWhile_cons, isJsonWs]

theorem skipWs_lbrace (x : List Char) : skipWs ('{' :: x) = '{' :: x := by
  simp [skipWs, List.dropWhile_cons, isJsonWs]

theorem skipWs_lbrack (x : List Char) : skipWs ('[' :: x) = '[' :: x := by
  simp [skipWs, List.dropWhile_cons, isJsonWs]

theorem parseValue_default (c : Char) (cs : List Char)
    (h : c.isDigit = true ∨ c = '-') (f : Nat) :
    parseValue (f + 1) (c :: cs) = parseNumber (c :: cs) := by
  have hws : isJsonWs c = false := by
    rcases Bool.eq_false_or_eq_true (isJsonWs c) with hw | hw
    swap
    · exact hw
    · exfalso
      simp [isJsonWs] at hw
      rcases h with h | rfl
      · rcases hw with ((rfl | rfl) | rfl) | rfl <;> exact absurd h (by decide)
      · rcases hw with ((hh | hh) | hh) | hh <;> exact absurd hh (by decide)
  rw [parseValue]
  rw [skipWs_cons_not c cs hws]
  split
  all_goals try rfl
  all_goals exfalso
  all_goals rename_i heq
  · exact List.noConfusion heq
  all_goals simp only [List.cons.injEq] at heq
  all_goals obtain ⟨rfl, -⟩ := heq
  all_goals rcases h with h | h <;> exact absurd h (by decide)

theorem parseValue_str (f : Nat) (s : String) (rest : List Char) :
    parseValue (f + 1) (serializeString s ++ rest) = some (.str s, rest) := by
  rw [serializeString_append]
  show (match parseStringAux (escapeChars s.data ++ '"' :: rest) with
    | some (s', r) => some (Json.str ⟨s'⟩, r)
    | none => none) = some (.str s, rest)
  rw [parseStringAux_escape]

theorem parseValue_bool (f : Nat) (b : Bool) (rest : List Char) :
    parseValue (f + 1) (serializeBool b ++ rest) = some (.bool b, rest) := by
  cases b <;> rfl

theorem parseValue_num (f : Nat) (i : Int) (rs : List Char) :
    parseValue (f + 1) (intToChars i ++ '}' :: rs) = some (.num ⟨i, 0⟩, '}' :: rs) := by
  have hhead : ∃ c cs', intToChars i ++ '}' :: rs = c :: cs' ∧
      (c.isDigit = true ∨ c = '-') := by
    by_cases h : i < 0
    · refine ⟨'-', natToDigits i.natAbs ++ '}' :: rs, ?_, Or.inr rfl⟩
      rw [show intToChars i = '-' :: natToDigits i.natAbs from by rw [intToChars, if_pos h]]
      rw [List.cons_append]
    · obtain ⟨c, cs', hc⟩ : ∃ a b, natToDigits i.natAbs = a :: b := by
        cases hh : natToDigits i.natAbs with
        | nil => exact absurd hh (natToDigits_ne_nil _)
        | cons a b => exact ⟨a, b, rfl⟩
      refine ⟨c, cs' ++ '}' :: rs, ?_, Or.inl (natToDigits_head i.natAbs c cs' hc).1⟩
      rw [show intToChars i = natToDigits i.natAbs from by rw [intToChars, if_neg h]]
      rw [hc, List.cons_append]
  obtain ⟨c, cs', hc, hd⟩ := hhead
  rw [hc, parseValue_default c cs' hd f, ← hc]
  exact parseNumber_int i rs

theorem string_eta (s : String) : String.mk s.data = s := rfl

theorem parseMembers_cons (f : Nat) (k : String) (rest1 : List Char) (v : Json)
    (r3 : List Char) (hval : parseValue f rest1 = some (v, r3)) :
    parseMembers (f + 1) (serializeString k ++ ':' :: rest1) =
      match skipWs r3 with
      | ',' :: r4 =>
        match parseMembers f r4 with
        | some (ms, r5) => some ((k, v) :: ms, r5)
        | none => none
      | '}' :: r4 => some ([(k, v)], r4)
      | _ => none := by
  rw [serializeString_append, parseMembers, skipWs_quote]
  show (match parseStringAux (escapeChars k.data ++ '"' :: ':' :: rest1) with
    | none => none
    | some (kk, r1) =>
      match skipWs r1 with
      | ':' :: r2 =>
        match parseValue f r2 with
        | none => none
        | some (v, r3) =>
          match skipWs r3 with
          | ',' :: r4 =>
            match parseMembers f r4 with
            | some (ms, r5) => some ((String.mk kk, v) :: ms, r5)
            | none => none
          | '}' :: r4 => some ([(String.mk kk, v)], r4)
          | _ => none
      | _ => none) = _
  rw [parseStringAux_escape]
  show (match skipWs (':' :: rest1) with
    | ':' :: r2 =>
      match parseValue f r2 with
      | none => none
      | some (v, r3) =>
        match skipWs r3 with
        | ',' :: r4 =>
          match parseMembers f r4 with
          | some (ms, r5) => some ((String.mk k.data, v) :: ms, r5)
          | none => none
        | '}' :: r4 => some ([(String.mk k.data, v)], r4)
        | _ => none
    | _ => none) = _
  rw [skipWs_colon]
  show (match parseValue f rest1 with
    | none => none
    | some (v, r3) =>
      match skipWs r3 with
      | ',' :: r4 =>
        match parseMembers f r4 with
        | some (ms, r5) => some ((String.mk k.data, v) :: ms, r5)
        | none => none
      | '}' :: r4 => some ([(String.mk k.data, v)], r4)
      | _ => none) = _
  rw [hval, string_eta]

theorem parseMembers_task (t : Task) (f : Nat) (rs : List Char) :
    parseMembers (f + 5)
      (serializeString "id" ++ ':' :: (serializeString t.id ++ ',' ::
       (serializeString "text" ++ ':' :: (serializeString t.text ++ ',' ::
       (serializeString "done" ++ ':' :: (serializeBool t.done ++ ',' ::
       (serializeString "createdAt" ++ ':' ::
         (intToChars t.createdAt ++ '}' :: rs)))))))) =
    some ([("id", .str t.id), ("text", .str t.text), ("done", .bool t.done),
           ("createdAt", .num ⟨t.createdAt, 0⟩)], rs) := by
  have h4 : parseMembers (f + 2)
      (serializeString "createdAt" ++ ':' :: (intToChars t.createdAt ++ '}' :: rs)) =
      some ([("createdAt", .num ⟨t.createdAt, 0⟩)], rs) := by
    rw [parseMembers_cons (f + 1) "createdAt" _ _ ('}' :: rs)
      (parseValue_num f t.createdAt rs), skipWs_rbrace]
    rfl
  have h3 : parseMembers (f + 3)
      (serializeString "done" ++ ':' :: (serializeBool t.done ++ ',' ::
        (serializeString "createdAt" ++ ':' :: (intToChars t.createdAt ++ '}' :: rs)))) =
      some ([("done", .bool t.done), ("createdAt", .num ⟨t.createdAt, 0⟩)], rs) := by
    rw [parseMembers_cons (f + 2) "done" _ _ _ (parseValue_bool (f + 1) t.done _),
      skipWs_comma]
    simp only [h4]
  have h2 : parseMembers (f + 4)
      (serializeString "text" ++ ':' :: (serializeString t.text ++ ',' ::
       (serializeString "done" ++ ':' :: (serializeBool t.done ++ ',' ::
       (serializeString "createdAt" ++ ':' ::
         (intToChars t.createdAt ++ '}' :: rs)))))) =
      some ([("text", .str t.text), ("done", .bool t.done),
        ("createdAt", .num ⟨t.createdAt, 0⟩)], rs) := by
    rw [parseMembers_cons (f + 3) "text" _ _ _ (parseValue_str (f + 2) t.text _),
      skipWs_comma]
    simp only [h3]
  rw [parseMembers_cons (f + 4) "id" _ _ _ (parseValue_str (f + 3) t.id _),
    skipWs_comma]
  simp only [h2]

theorem parseValue_obj (f : Nat) (x : List Char) :
    parseValue (f + 1) ('{' :: '"' :: x) =
      match parseMembers f ('"' :: x) with
      | some (ms, r) => some (.obj ms, r)
      | none => none := rfl

theorem parseValue_task (t : Task) (f : Nat) (rest : List Char) :
    parseValue (f + 6) (serializeTask t ++ rest) = some (taskToJson t, rest) := by
  have hser : serializeTask t ++ rest = '{' ::
      (serializeString "id" ++ ':' :: (serializeString t.id ++ ',' ::
       (serializeString "text" ++ ':' :: (serializeString t.text ++ ',' ::
       (serializeString "done" ++ ':' :: (serializeBool t.done ++ ',' ::
       (serializeString "createdAt" ++ ':' ::
         (intToChars t.createdAt ++ '}' :: rest)))))))) := by
    simp [serializeTask, List.append_assoc]
  rw [hser, serializeString_append, parseValue_obj (f + 5), ← serializeString_append]
  simp only [parseMembers_task]
  rfl

theorem parseValue_task_ge (t : Task) (g : Nat) (h : 6 ≤ g) (rest : List Char) :
    parseValue g (serializeTask t ++ rest) = some (taskToJson t, rest) := by
  obtain ⟨f, rfl⟩ : ∃ f, g = f + 6 := ⟨g - 6, by omega⟩
  exact parseValue_task t f rest

theorem parseElems_tasks (ts : List Task) :
    ∀ (t : Task) (g : Nat), ts.length + 7 ≤ g → ∀ rs : List Char,
      parseElems g (joinComma ((t :: ts).map serializeTask) ++ ']' :: rs) =
        some ((t :: ts).map taskToJson, rs) := by
  induction ts with
  | nil =>
    intro t g hg rs
    obtain ⟨f, rfl⟩ : ∃ f, g = f + 1 := ⟨g - 1, by omega⟩
    show parseElems (f + 1) (serializeTask t ++ ']' :: rs) = _
    rw [parseElems, parseValue_task_ge t f (by omega) (']' :: rs)]
    simp only [skipWs_rbrack]
    rfl
  | cons t2 ts2 ih =>
    intro t g hg rs
    obtain ⟨f, rfl⟩ : ∃ f, g = f + 1 := ⟨g - 1, by omega⟩
    rw [show joinComma ((t :: t2 :: ts2).map serializeTask) =
      serializeTask t ++ ',' :: joinComma ((t2 :: ts2).map serializeTask) from rfl]
    rw [List.append_assoc, parseElems,
      parseValue_task_ge t f (by simp at hg ⊢; omega) _]
    have hrec := ih t2 f (by simp at hg ⊢; omega) rs
    simp only [List.cons_append, skipWs_comma, hrec]
    rfl

theorem serializeTask_length (t : Task) : 7 ≤ (serializeTask t).length := by
  simp [serializeTask, serializeString, List.length_append]
  omega

theorem joinComma_tasks_length (ts : List Task) :
    ∀ t : Task, 7 * (ts.length + 1) ≤ (joinComma ((t :: ts).map serializeTask)).length := by
  induction ts with
  | nil =>
    intro t
    simpa [joinComma] using serializeTask_length t
  | cons t2 ts2 ih =>
    intro t
    rw [show joinComma ((t :: t2 :: ts2).map serializeTask) =
      serializeTask t ++ ',' :: joinComma ((t2 :: ts2).map serializeTask) from rfl]
    have h1 := serializeTask_length t
    have h2 := ih t2
    simp only [List.length_append, List.length_cons, List.length_map] at h2 ⊢
    omega

theorem parseValue_arr (f : Nat) (x : List Char) :
    parseValue (f + 1) ('[' :: '{' :: x) =
      match parseElems f ('{' :: x) with
      | some (vs, r) => some (.arr vs, r)
      | none => none := rfl

theorem jsonParse_serializeTasks (l : List Task) :
    jsonParse (serializeTasks l) = some (tasksToJson l) := by
  cases l with
  | nil => rfl
  | cons t ts =>
    obtain ⟨R, hR⟩ : ∃ R, joinComma ((t :: ts).map serializeTask) =
        serializeTask t ++ R := by
      cases ts with
      | nil => exact ⟨[], by simp [joinComma]⟩
      | cons t2 ts2 => exact ⟨',' :: joinComma ((t2 :: ts2).map serializeTask), rfl⟩
    obtain ⟨B, hB⟩ : ∃ B, serializeTask t = '{' :: B := ⟨_, rfl⟩
    have hdata : (serializeTasks (t :: ts)).data =
        '[' :: (joinComma ((t :: ts).map serializeTask) ++ [']']) := rfl
    have hlen : ts.length + 7 ≤ (serializeTasks (t :: ts)).data.length := by
      rw [hdata]
      have := joinComma_tasks_length ts t
      simp only [List.length_cons, List.length_append, List.length_singleton]
      omega
    unfold jsonParse
    set L := (serializeTasks (t :: ts)).data.length with hL
    obtain ⟨K, hK⟩ : ∃ K, L = K + 1 := ⟨L - 1, by omega⟩
    rw [hdata, hK]
    rw [show ('[' : Char) :: (joinComma ((t :: ts).map serializeTask) ++ [']']) =
      '[' :: '{' :: (B ++ R ++ [']']) from by rw [hR, hB]; simp]
    rw [parseValue_arr]
    rw [show ('{' :: (B ++ R ++ [']']) : List Char) =
      joinComma ((t :: ts).map serializeTask) ++ ']' :: [] from by rw [hR, hB]; simp]
    rw [parseElems_tasks ts t _ (by omega) []]
    rfl

theorem decodeTask_taskToJson (t : Task) : decodeTask (taskToJson t) = some t := rfl

theorem decodeTasks_map (l : List Task) :
    decodeTasks (l.map taskToJson) = some l := by
  induction l with
  | nil => rfl
  | cons t ts ih =>
    show decodeTasks (taskToJson t :: ts.map taskToJson) = some (t :: ts)
    simp only [decodeTasks, decodeTask_taskToJson, ih]

theorem serializeTasks_ne_empty (l : List Task) : serializeTasks l ≠ "" := by
  intro h
  have : (serializeTasks l).data = [] := by rw [h]
  rw [show (serializeTasks l).data =
    '[' :: (joinComma (l.map serializeTask) ++ [']']) from rfl] at this
  exact List.noConfusion this

/-- Claim C9: serializing a task list with the persistence format and
loading it back succeeds and yields the same list, in content and
order: the parse of the serialized blob is exactly the JSON tree of
the list, `load` returns that tree, and decoding it restores the
original list. -/
theorem c9_roundtrip (l : List Task) :
    jsonParse (serializeTasks l) = some (tasksToJson l) ∧
    load (some (serializeTasks l)) = tasksToJson l ∧
    decodeTaskList (tasksToJson l) = some l ∧
    decodeStored (some (serializeTasks l)) = some l := by
  have h1 := jsonParse_serializeTasks l
  have h2 : load (some (serializeTasks l)) = tasksToJson l := by
    show (if serializeTasks l = "" then Json.arr []
      else match jsonParse (serializeTasks l) with
        | some j => j
        | none => Json.arr []) = tasksToJson l
    rw [if_neg (serializeTasks_ne_empty l), h1]
  have h3 : decodeTaskList (tasksToJson l) = some l := by
    show decodeTasks (l.map taskToJson) = some l
    exact decodeTasks_map l
  refine ⟨h1, h2, h3, ?_⟩
  show (jsonParse (serializeTasks l)).bind decodeTaskList = some l
  rw [h1]
  exact h3

end Todo
